import Mathlib

/-!
# Verification of `MixedRadixEvaluationDomain`

Shallow embedding of
`src/tachyon/math/polynomials/univariate/mixed_radix_evaluation_domain.h`
(the mixed-radix FFT evaluation domain), together with proofs and
counterexamples for the specification's testable properties.

Machine integers (`size_t`, `uint64_t`, `uint32_t`) are modelled as `Nat`;
all quantities handled by the claims stay far below `2 ^ 64`, and theorems
carry explicit hypotheses wherever that matters.  Field elements are taken
in an arbitrary commutative ring (instantiated at `ZMod p` for concrete
evaluations).  In-place buffer mutation is modelled by explicit state
passing on `List F` buffers (`List.set` writes, `List.getD` reads).
-/

namespace MixedRadix

/-- The compile-time configuration constants of the field `F`
(`F::Config::kTwoAdicity`, `kSmallSubgroupBase`, `kSmallSubgroupAdicity`,
`kHasLargeSubgroupRootOfUnity`). -/
structure FieldConfig where
  kTwoAdicity : Nat
  kSmallSubgroupBase : Nat
  kSmallSubgroupAdicity : Nat
  kHasLargeSubgroupRootOfUnity : Bool

/-- The `(two_adicity, q_adicity)` pair produced by `F::Decompose`
(`PrimeFieldFactors` in the source). -/
structure PrimeFieldFactors where
  two_adicity : Nat
  q_adicity : Nat
deriving DecidableEq

/-- The inner `for` loop of `MaxDegreeForMixedRadixEvaluationDomain`
(lines 40-42).  The C++ loop header `for (size_t i = 0; i <= kSmallSubgroupAdicity; ++i)`
declares a loop variable `i` that shadows the outer accumulator `i = 1`,
so the body `i *= kSmallSubgroupBase` updates the loop variable only:
one iteration takes the loop variable from `innerI` to `innerI * base + 1`
(body, then increment), and the outer accumulator `outer` is never written.
`fuel` bounds the iteration count; for `base ≥ 1` the C++ loop terminates
within `adicity + 2` iterations, and the returned value is the untouched
`outer` regardless. -/
def maxDegreeLoop (base adicity : Nat) : Nat → Nat → Nat → Nat
  | 0, outer, _ => outer
  | fuel + 1, outer, innerI =>
    if innerI ≤ adicity then maxDegreeLoop base adicity fuel outer (innerI * base + 1)
    else outer

/-- `MaxDegreeForMixedRadixEvaluationDomain<F>()` (lines 37-44): initializes
`i = 1`, runs the (shadowed, hence ineffective) loop, and returns
`i * 2^kTwoAdicity - 1`. -/
def MaxDegreeForMixedRadixEvaluationDomain (cfg : FieldConfig) : Nat :=
  let i := 1
  let i := maxDegreeLoop cfg.kSmallSubgroupBase cfg.kSmallSubgroupAdicity
    (cfg.kSmallSubgroupAdicity + 2) i 0
  i * 2 ^ cfg.kTwoAdicity - 1

/-- `UINT64_MAX`, the initial value of `best` in `BestMixedDomainSize`. -/
def UINT64MAX : Nat := 2 ^ 64 - 1

/-- The `while (r < min_size) { r *= 2; ++two_adicity; }` loop of
`BestMixedDomainSize` (lines 159-162), returning the final `r` together with
the number `two_adicity` of doublings performed.  `fuel` bounds the number of
iterations: for `r ≥ 1` the C++ loop terminates after at most `minSize`
doublings (we call it with `fuel = minSize`), and the characterization
theorems below require `minSize ≤ r * 2 ^ fuel`. -/
def doubleLoop : Nat → Nat → Nat → Nat × Nat
  | 0, _, r => (r, 0)
  | fuel + 1, minSize, r =>
    if r < minSize then
      let p := doubleLoop fuel minSize (2 * r)
      (p.1, p.2 + 1)
    else (r, 0)

/-- `BestMixedDomainSize(min_size)` (lines 153-168): for each
`i ∈ [0, kSmallSubgroupAdicity]`, start from `r = base^i`, double `r` until
`r ≥ min_size`, and if the number of doublings is at most `kTwoAdicity`,
contend `r` for the minimum; `best` starts at `UINT64_MAX`.
(`std::pow(uint64_t{base}, i)` is exact for the sizes in scope and is
modelled as `base ^ i`.) -/
def BestMixedDomainSize (cfg : FieldConfig) (minSize : Nat) : Nat :=
  (List.range (cfg.kSmallSubgroupAdicity + 1)).foldl
    (fun best i =>
      let r0 := cfg.kSmallSubgroupBase ^ i
      let p := doubleLoop minSize minSize r0
      if p.2 ≤ cfg.kTwoAdicity then min best p.1 else best)
    UINT64MAX

/-- Modelled from the spec: the recursion underlying `ComputeAdicity(q, n)`
(declared in code outside `src/`): repeatedly divide `n` by `q` while `q`
divides `n`, counting the divisions.  `fuel` bounds the iteration count
(`n` suffices, since `n` at least halves each step). -/
def computeAdicityAux : Nat → Nat → Nat → Nat
  | 0, _, _ => 0
  | fuel + 1, q, n =>
    if 2 ≤ q ∧ 1 ≤ n ∧ q ∣ n then computeAdicityAux fuel q (n / q) + 1 else 0

/-- Modelled from the spec: `ComputeAdicity(q, n)` (not under `src/`; used by
`SerialFFT` at line 195 and `ParallelFFT` at line 308) — the number of times
`q` divides `n`. -/
def computeAdicity (q n : Nat) : Nat := computeAdicityAux n q n

/-- Modelled from the spec: `F::Decompose(size, factors)` (prime-field code,
not under `src/`): "a static decomposition routine
`Decompose(candidate_size) -> (two_adicity, q_adicity) | failure` validating
that `candidate_size` factors exactly as `base^q_adicity * 2^two_adicity`
under the field's configured bounds." -/
def Decompose (cfg : FieldConfig) (size : Nat) : Option PrimeFieldFactors :=
  let ta := computeAdicity 2 size
  let qa := computeAdicity cfg.kSmallSubgroupBase (size / 2 ^ ta)
  if size = cfg.kSmallSubgroupBase ^ qa * 2 ^ ta ∧ ta ≤ cfg.kTwoAdicity ∧
      qa ≤ cfg.kSmallSubgroupAdicity then
    some ⟨ta, qa⟩
  else none

/-- `ComputeSizeAndFactors(num_coeffs, size_out, factors)` (lines 113-121):
take the best mixed domain size, fail if it exceeds `MaxDegree + 1` (with the
default template argument `MaxDegree = MaxDegreeForMixedRadixEvaluationDomain()`),
then delegate to `F::Decompose`.  The `bool` result plus out-parameters are
modelled as an `Option`. -/
def ComputeSizeAndFactors (cfg : FieldConfig) (numCoeffs : Nat) :
    Option (Nat × PrimeFieldFactors) :=
  let size := BestMixedDomainSize cfg numCoeffs
  if size > MaxDegreeForMixedRadixEvaluationDomain cfg + 1 then none
  else (Decompose cfg size).map (fun f => (size, f))

/-- `IsValidNumCoeffs(num_coeffs)` (lines 71-76). -/
def IsValidNumCoeffs (cfg : FieldConfig) (numCoeffs : Nat) : Bool :=
  if !cfg.kHasLargeSubgroupRootOfUnity then false
  else (ComputeSizeAndFactors cfg numCoeffs).isSome

/-- `Create(num_coeffs)` (lines 62-69): `CHECK(ComputeSizeAndFactors(...))`
(a fatal abort on failure, modelled as `none`), then construct the domain
from `size` and `factors.two_adicity` (the latter is stored by the base
class as `log_size_of_group_`; the field-element members are derived by the
base class, outside `src/`).  The arithmetic content of the constructed
domain is the pair `(size, log_size_of_group_)`. -/
def Create (cfg : FieldConfig) (numCoeffs : Nat) : Option (Nat × Nat) :=
  (ComputeSizeAndFactors cfg numCoeffs).map (fun p => (p.1, p.2.two_adicity))

/-- One of the two digit-extraction loops of `MixedRadixFFTPermute`
(lines 140-144 with `radix = 2`, lines 145-149 with `radix = q`): iterate
`count` times the body `shift /= radix; res += (i % radix) * shift; i /= radix`
on the state `(res, shift, i)`. -/
def permuteLoop (radix : Nat) : Nat → Nat × Nat × Nat → Nat × Nat × Nat
  | 0, st => st
  | count + 1, (res, shift, i) =>
    permuteLoop radix count (res + (i % radix) * (shift / radix), shift / radix, i / radix)

/-- `MixedRadixFFTPermute(two_adicity, q_adicity, q, n, i)` (lines 123-151):
the generalized digit-reversal permutation, via `two_adicity` binary digit
steps followed by `q_adicity` base-`q` digit steps. -/
def MixedRadixFFTPermute (twoAdicity qAdicity q n i : Nat) : Nat :=
  let st := permuteLoop 2 twoAdicity (0, n, i)
  let st := permuteLoop q qAdicity st
  st.1

/-- Reversal of the `t` low base-`b` digits of `x` (proof-side closed form of
the permutation loops). -/
def digitRev (b : Nat) : Nat → Nat → Nat
  | 0, _ => 0
  | t + 1, x => x % b * b ^ t + digitRev b t (x / b)

/-- Proof-side inverse of `MixedRadixFFTPermute` on `[0, q^t * 2^s)`. -/
def permuteInv (s t q i : Nat) : Nat :=
  digitRev 2 s (i / q ^ t) + 2 ^ s * digitRev q t (i % q ^ t)

/-- The fatal size-factorization check of `SerialFFT` (lines 195-200):
`CHECK_EQ(n, q_part * two_part)` with `q_part = q^ComputeAdicity(q, n)` and
`two_part = 2^two_adicity` for the `two_adicity` argument passed in. -/
def serialFFTSizeCheckOK (q n twoAdicity : Nat) : Bool :=
  n == q ^ computeAdicity q n * 2 ^ twoAdicity

section Transform

variable {F : Type} [CommRing F] [DecidableEq F]

/-- Swap the buffer entries at positions `dest` and `k`
(`std::swap(a.at(dest), a_i)` at line 221, where `a_i` is a reference bound
to slot `k`).  Buffers are `List F`; reads out of range give the additive
identity and writes out of range are dropped (never exercised in range). -/
def swapAt (a : List F) (dest k : Nat) : List F :=
  let tmp := a.getD dest 0
  (a.set dest (a.getD k 0)).set k tmp

/-- The `while (!seen[i])` cycle walk of the permutation phase of `SerialFFT`
(lines 217-224): starting from `i`, repeatedly swap the entry at
`MixedRadixFFTPermute(... i)` with the holding slot `k`, marking each visited
`i`.  `fuel` bounds the iteration count; each iteration marks a previously
unmarked index, so `fuel = n + 1` never runs out on indices below `n`. -/
def walkCycle (σ : Nat → Nat) (k : Nat) :
    Nat → Nat → List F × List Bool → List F × List Bool
  | 0, _, st => st
  | fuel + 1, i, (a, seen) =>
    if seen.getD i false then (a, seen)
    else
      let dest := σ i
      walkCycle σ k fuel dest (swapAt a dest k, seen.set i true)

/-- The permutation application of `SerialFFT` (lines 215-225): a fresh
`seen` array of `n` entries, then for each `k < n` walk the cycle of `k`
(the C++ binds `F& a_i = a.at(i)` with `i = k`, so the walk always swaps
against slot `k`). -/
def applyPermutation (σ : Nat → Nat) (n : Nat) (a : List F) : List F :=
  ((List.range n).foldl (fun st k => walkCycle σ k (n + 1) k st)
    (a, List.replicate n false)).1

/-- The output loop of one `(k, j)` butterfly group of the radix-`q` merge
pass (lines 249-255): for `i = 0, …, q-1`, first `a.at(kj + i*m) = base_term`,
then `a.at(kj + i*m) += terms[l-1] * qth_roots[(i*l) % q]` for
`l = 1, …, q-1`.  `base_term` is declared at line 241 as `const F&`, a
reference to `a[kj]`, so it is re-read from the buffer at every use — in
particular the `i = 0` iteration finishes writing `a[kj]` before the
iterations `i ≥ 1` read `base_term` again. -/
def qGroupOutputs (q m kj : Nat) (terms qthRoots : List F) (a : List F) :
    List F :=
  (List.range q).foldl
    (fun a i =>
      let a := a.set (kj + i * m) (a.getD kj 0)
      (List.range (q - 1)).foldl
        (fun a l =>
          a.set (kj + i * m)
            (a.getD (kj + i * m) 0 + terms.getD l 0 * qthRoots.getD (i * (l + 1) % q) 0))
        a)
    a

/-- One radix-`q` merge pass (lines 237-259): for each block start
`k = 0, m*q, 2*m*q, …` (the block count is `n / (q*m)`; `q*m` divides `n`
whenever this pass runs) and each offset `j < m`, with `w_j = w_m^j`, read
`terms[l-1] = a[k+j+l*m] * w_j^l` (lines 242-247, where `w_j_i` iterates the
powers of `w_j`), then run the output loop. -/
def qPassBlocks (q m n : Nat) (wm : F) (qthRoots : List F) (a : List F) :
    List F :=
  (List.range (n / (q * m))).foldl
    (fun a blk =>
      let k := blk * (q * m)
      (List.range m).foldl
        (fun a j =>
          let wj := wm ^ j
          let kj := k + j
          let terms := (List.range (q - 1)).map
            (fun l => a.getD (kj + (l + 1) * m) 0 * wj ^ (l + 1))
          qGroupOutputs q m kj terms qthRoots a)
        a)
    a

/-- Modelled from the spec:
`UnivariateEvaluationDomain::ButterflyFnOutIn(out, in, w)`
(univariate_evaluation_domain.h, not under `src/`) — the "generic two-term
butterfly primitive": `(out, in) ← (out + w*in, out - w*in)`. -/
def butterflyFnOutIn (x y w : F) : F × F := (x + w * y, x - w * y)

/-- One radix-2 butterfly pass (lines 267-279): for each block start
`k = 0, 2m, 4m, …` and each `j < m`, apply `ButterflyFnOutIn` to
`a[k+j]` and `a[k+m+j]` with twiddle `w = w_m^j`. -/
def twoPassBlocks (m n : Nat) (wm : F) (a : List F) : List F :=
  (List.range (n / (2 * m))).foldl
    (fun a blk =>
      let k := blk * (2 * m)
      (List.range m).foldl
        (fun a j =>
          let w := wm ^ j
          let p := butterflyFnOutIn (a.getD (k + j) 0) (a.getD (k + m + j) 0) w
          (a.set (k + j) p.1).set (k + m + j) p.2)
        a)
    a

/-- Modelled from the spec:
`UnivariateEvaluationDomain::SwapElements(a, n, two_adicity)`
(univariate_evaluation_domain.h, not under `src/`) — the "canonical radix-2
bit-reversal swap" applied when `q_adicity == 0` (line 264): position `idx`
receives the entry whose index is `idx` with its `two_adicity` low bits
reversed (binary bit reversal is an involution, so direction is immaterial). -/
def swapElements (n logLen : Nat) (a : List F) : List F :=
  (List.range a.length).map
    (fun idx => if idx < n then a.getD (digitRev 2 logLen idx) 0 else a.getD idx 0)

/-- `SerialFFT(a, omega, two_adicity)` (lines 186-280), with
`n = a.NumElements()`.  Returns `none` when the fatal
`CHECK_EQ(n, q_part * two_part)` fires.  The running block size `m` starts
at 1, is multiplied by `q` after each radix-`q` pass and by 2 after each
radix-2 pass; the radix-`q` phase also precomputes
`qth_roots[i] = (omega^(n/q))^i` (lines 227-231; the source builds the same
values by iterated multiplication). -/
def serialFFT (q : Nat) (a : List F) (ω : F) (twoAdicity : Nat) :
    Option (List F) :=
  let n := a.length
  let qAdicity := computeAdicity q n
  if serialFFTSizeCheckOK q n twoAdicity then
    let st :=
      if 0 < qAdicity then
        let a := applyPermutation (MixedRadixFFTPermute twoAdicity qAdicity q n) n a
        let ωq := ω ^ (n / q)
        let qthRoots := (List.range q).map (fun i => ωq ^ i)
        (List.range qAdicity).foldl
          (fun (st : Nat × List F) _ =>
            let m := st.1
            (m * q, qPassBlocks q m n (ω ^ (n / (q * m))) qthRoots st.2))
          (1, a)
      else (1, swapElements n twoAdicity a)
    let st := (List.range twoAdicity).foldl
      (fun (st : Nat × List F) _ =>
        let m := st.1
        (m * 2, twoPassBlocks m n (ω ^ (n / (2 * m))) st.2))
      st
    some st.2
  else none

/-- The coset-polynomial construction of `ParallelFFT` (lines 314-356) for
coset `k`: starting from the all-zero buffer of length `cosetSize`
(`PolyOrEvals::Zero(coset_size - 1)`) and `elt = 1`, for each
`i < cosetSize` and each `c < numThreads` accumulate
`a[i + c*cosetSize] * elt` into entry `i` and multiply `elt` by
`omega_step = omega^(k*cosetSize)`; after each inner loop multiply `elt` by
`omega_k = omega^k`. -/
def cosetPolyCoeffs (a : List F) (cosetSize numThreads : Nat) (ωk ωstep : F) :
    List F :=
  ((List.range cosetSize).foldl
    (fun (st : F × List F) i =>
      let st := (List.range numThreads).foldl
        (fun (st : F × List F) c =>
          let idx := i + c * cosetSize
          let t := a.getD idx 0 * st.1
          (st.1 * ωstep, st.2.set i (st.2.getD i 0 + t)))
        st
      (st.1 * ωk, st.2))
    (1, List.replicate cosetSize 0)).2

/-- `ParallelFFT(a, omega, two_adicity, log_num_threads)` (lines 283-369):
`CHECK_GE(two_adicity, log_num_threads)` and `CHECK_EQ(m % num_threads, 0)`
are modelled as `none`; build each coset polynomial, run `SerialFFT` on it
with root `omega^num_cosets` and two-adicity `ComputeAdicity(2, coset_size)`,
then interleave: output `i` is entry `i / num_cosets` of coset buffer
`i % num_cosets`. -/
def parallelFFT (q : Nat) (a : List F) (ω : F) (twoAdicity logNumThreads : Nat) :
    Option (List F) :=
  if twoAdicity < logNumThreads then none
  else
    let m := a.length
    let numThreads := 2 ^ logNumThreads
    let numCosets := numThreads
    if m % numThreads ≠ 0 then none
    else
      let cosetSize := m / numThreads
      let newOmega := ω ^ numCosets
      let newTwoAdicity := computeAdicity 2 cosetSize
      let tmp := (List.range numCosets).mapM
        (fun k =>
          serialFFT q (cosetPolyCoeffs a cosetSize numThreads (ω ^ k) (ω ^ (k * cosetSize)))
            newOmega newTwoAdicity)
      tmp.map (fun tmp =>
        (List.range m).map (fun i => (tmp.getD (i % numCosets) []).getD (i / numCosets) 0))

/-- The dispatch condition of `BestFFT` (lines 170-184) in an
OpenMP-enabled build: the source takes the serial path when
`log_size_of_group_ <= log_thread_nums` and the parallel path otherwise. -/
def bestFFTUsesParallelPath (logSizeOfGroup logThreadNums : Nat) : Bool :=
  if logSizeOfGroup ≤ logThreadNums then false else true

/-- The immutable domain parameters held by a constructed
`MixedRadixEvaluationDomain` (storage is provided by the
`UnivariateEvaluationDomain` base class, outside `src/`; modelled from the
spec's data model: size, log2-size slot — which `Create` fills with
`factors.two_adicity` — generator, inverse generator, size inverse, coset
offset and its inverse). -/
structure Domain (F : Type) where
  size : Nat
  logSizeOfGroup : Nat
  groupGen : F
  groupGenInv : F
  sizeInv : F
  offset : F
  offsetInv : F

/-- `BestFFT(poly_or_evals, omega)` (lines 170-184), with the thread count of
the environment supplied as `logThreadNums`. -/
def bestFFT (q : Nat) (dom : Domain F) (a : List F) (ω : F)
    (logThreadNums : Nat) : Option (List F) :=
  if bestFFTUsesParallelPath dom.logSizeOfGroup logThreadNums then
    parallelFFT q a ω dom.logSizeOfGroup logThreadNums
  else serialFFT q a ω dom.logSizeOfGroup

/-- Modelled from the spec: `UnivariateEvaluationDomain::DistributePowers`
(not under `src/`) — the "coset twist": multiply element `i` by `c^i`. -/
def distributePowers (v : List F) (c : F) : List F :=
  v.mapIdx (fun i x => x * c ^ i)

/-- Modelled from the spec:
`UnivariateEvaluationDomain::DistributePowersAndMulByConst` (not under
`src/`) — the fused untwist-and-scale: multiply element `i` by `c^i * k`. -/
def distributePowersAndMulByConst (v : List F) (c k : F) : List F :=
  v.mapIdx (fun i x => x * (c ^ i * k))

/-- Modelled from the spec: `coefficients_.RemoveHighDegreeZeros()` (container
code, not under `src/`) — trim trailing additive-identity coefficients. -/
def removeHighDegreeZeros (v : List F) : List F :=
  (v.reverse.dropWhile (fun x => x == 0)).reverse

/-- `resize(size, F::Zero())` on a coefficient/evaluation vector: truncate or
pad with zeros to length `size`. -/
def resizeZero (v : List F) (size : Nat) : List F :=
  v.take size ++ List.replicate (size - v.length) 0

/-- `DoFFT(evals)` (lines 88-94): twist by the coset offset when it is not
one, resize to the domain size, and run `BestFFT` with the group generator. -/
def DoFFT (q : Nat) (dom : Domain F) (evals : List F) (logThreadNums : Nat) :
    Option (List F) :=
  let evals := if dom.offset = 1 then evals else distributePowers evals dom.offset
  let evals := resizeZero evals dom.size
  bestFFT q dom evals dom.groupGen logThreadNums

/-- `DoIFFT(poly)` (lines 97-111): resize to the domain size, run `BestFFT`
with the inverse generator, then either scale every coefficient by
`size_inv_` (identity offset) or apply the fused untwist-and-scale, and trim
trailing zeros. -/
def DoIFFT (q : Nat) (dom : Domain F) (poly : List F) (logThreadNums : Nat) :
    Option (List F) :=
  let poly := resizeZero poly dom.size
  (bestFFT q dom poly dom.groupGenInv logThreadNums).map
    (fun coeffs =>
      let coeffs :=
        if dom.offset = 1 then coeffs.map (fun c => c * dom.sizeInv)
        else distributePowersAndMulByConst coeffs dom.offsetInv dom.sizeInv
      removeHighDegreeZeros coeffs)

end Transform

/-- Configuration of a field like `Z/13`: multiplicative group of order
`12 = 3 * 2^2`, so `kTwoAdicity = 2`, `kSmallSubgroupBase = 3`,
`kSmallSubgroupAdicity = 1`, with a large-subgroup root of unity. -/
def cfg13 : FieldConfig := ⟨2, 3, 1, true⟩

/-- The configuration named by the spec's concrete scenario A: maximum
two-adicity 3, small-subgroup base 3, small-subgroup adicity 1. -/
def cfgA : FieldConfig := ⟨3, 3, 1, true⟩

/-- The size-3 domain over `Z/13` produced by `Create(3)` for `cfg13`
(size 3, `log_size_of_group_ = two_adicity = 0`): generator `3` (of
multiplicative order exactly 3 in `Z/13`), inverse generator `9`,
`size_inv = 3⁻¹ = 9`, identity coset offset. -/
def dom13 : Domain (ZMod 13) := ⟨3, 0, 3, 9, 9, 1, 1⟩

/-- A size-6 domain over `Z/13` (`6 = 3 * 2`, stored two-adicity 1):
generator `4` (of multiplicative order exactly 6 in `Z/13`), inverse
generator `10`, `size_inv = 6⁻¹ = 11`, identity coset offset. -/
def dom6 : Domain (ZMod 13) := ⟨6, 1, 4, 10, 11, 1, 1⟩


/-! ## Helper lemmas -/

lemma maxDegreeLoop_eq_outer (base adicity : Nat) :
    ∀ fuel outer innerI, maxDegreeLoop base adicity fuel outer innerI = outer := by
  intro fuel
  induction fuel with
  | zero => intro outer innerI; rfl
  | succ f ih =>
    intro outer innerI
    simp only [maxDegreeLoop]
    split
    · exact ih outer _
    · rfl

lemma maxDegree_eq (cfg : FieldConfig) :
    MaxDegreeForMixedRadixEvaluationDomain cfg = 2 ^ cfg.kTwoAdicity - 1 := by
  simp [MaxDegreeForMixedRadixEvaluationDomain, maxDegreeLoop_eq_outer]

/-! ## Claim theorems (first batch) -/

/-- Claim C6: with the default `MaxDegree` template argument,
`MaxDegreeForMixedRadixEvaluationDomain()` evaluates to `2^kTwoAdicity - 1`
for every field configuration — the inner loop variable shadows the
accumulator, so `kSmallSubgroupBase` and `kSmallSubgroupAdicity` do not
affect the result — and consequently `ComputeSizeAndFactors`,
`IsValidNumCoeffs` and `Create` reject every `num_coeffs` whose selected
size exceeds `2^kTwoAdicity`.  (The hypothesis `1 ≤ base` reflects that the
C++ loop only terminates for a positive base.) -/
theorem claim_c6_maxdegree_shadowing (cfg : FieldConfig)
    (_hb : 1 ≤ cfg.kSmallSubgroupBase) :
    MaxDegreeForMixedRadixEvaluationDomain cfg = 2 ^ cfg.kTwoAdicity - 1 ∧
    ∀ numCoeffs, 2 ^ cfg.kTwoAdicity < BestMixedDomainSize cfg numCoeffs →
      ComputeSizeAndFactors cfg numCoeffs = none ∧
      IsValidNumCoeffs cfg numCoeffs = false ∧
      Create cfg numCoeffs = none := by
  refine ⟨maxDegree_eq cfg, fun numCoeffs h => ?_⟩
  have hpow : 1 ≤ 2 ^ cfg.kTwoAdicity := Nat.one_le_two_pow
  have hmax : MaxDegreeForMixedRadixEvaluationDomain cfg + 1 = 2 ^ cfg.kTwoAdicity := by
    rw [maxDegree_eq cfg, Nat.sub_add_cancel hpow]
  have hnone : ComputeSizeAndFactors cfg numCoeffs = none := by
    simp only [ComputeSizeAndFactors, hmax]
    rw [if_pos h]
  refine ⟨hnone, ?_, ?_⟩
  · simp [IsValidNumCoeffs, hnone]
  · simp [Create, hnone]

/-- Witness for C6 at a concrete configuration (`cfgA`, `num_coeffs = 10`,
where the selected size 12 exceeds `2^3 = 8`). -/
theorem claim_c6_maxdegree_shadowing_witness :
    MaxDegreeForMixedRadixEvaluationDomain cfgA = 2 ^ cfgA.kTwoAdicity - 1 ∧
    ComputeSizeAndFactors cfgA 10 = none ∧
    IsValidNumCoeffs cfgA 10 = false ∧
    Create cfgA 10 = none :=
  ⟨(claim_c6_maxdegree_shadowing cfgA (by decide)).1,
   (claim_c6_maxdegree_shadowing cfgA (by decide)).2 10 (by decide)⟩

/-- Claim C4 counterexample: for the scenario-A configuration (two-adicity 3,
base 3, adicity 1), requesting `num_coeffs = 10` does NOT select 24 — the
sizing routine returns 12. -/
theorem claim_c4_cex : BestMixedDomainSize cfgA 10 ≠ 24 := by decide

/-- Claim C4 (amended): requesting `num_coeffs = 10` under the scenario-A
configuration selects size `12 = 3 * 2^2` (the smallest admissible mixed
size `≥ 10`, since `24` satisfies the two-adicity bound but is not minimal);
`ComputeSizeAndFactors` then rejects the request because 12 exceeds
`MaxDegree + 1 = 2^3 = 8` (by the shadowed-accumulator `MaxDegree`). -/
theorem claim_c4_amended :
    BestMixedDomainSize cfgA 10 = 12 ∧ ComputeSizeAndFactors cfgA 10 = none := by
  decide

/-- Claim C1 (code bug witness): over the field `Z/13` with configuration
`cfg13`, `Create(3)` succeeds and yields the size-3 domain `dom13`
(generator 3 of order exactly 3, inverse generator 9, `size_inv = 9`,
identity offset), yet `DoIFFT(DoFFT(P))` for the dense coefficient vector
`P = [0, 1]` returns `[5, 1] ≠ P`: the `const F& base_term` reference at
line 241 aliases `a[k+j]`, which the `i = 0` output iteration overwrites
before the `i ≥ 1` iterations read it. -/
theorem claim_c1_roundtrip_fails :
    Create cfg13 3 = some (3, 0) ∧
    ((3 : ZMod 13) ^ 3 = 1 ∧ ∀ d, d < 3 → 0 < d → (3 : ZMod 13) ^ d ≠ 1) ∧
    dom13.groupGen * dom13.groupGenInv = 1 ∧
    dom13.sizeInv * (3 : ZMod 13) = 1 ∧ dom13.offset = 1 ∧
    (DoFFT 3 dom13 [0, 1] 2).bind (fun e => DoIFFT 3 dom13 e 2) =
      some [5, 1] ∧
    some ([5, 1] : List (ZMod 13)) ≠ some (removeHighDegreeZeros [0, 1]) := by
  decide

/-- Claim C2 (code bug witness): over `Z/13` with `omega = 4` (a root of
unity of order exactly `6 = 3^1 * 2^1`) and worker-count exponent
`log_num_threads = 1 ≤` two-adicity `1`, `ParallelFFT` and `SerialFFT`
disagree on the buffer `[1, 2, 3, 4, 5, 6]` — both paths run the aliasing
bug of line 241 but corrupt different intermediate values. -/
theorem claim_c2_parallel_serial_differ :
    ((4 : ZMod 13) ^ 6 = 1 ∧ ∀ d, d < 6 → 0 < d → (4 : ZMod 13) ^ d ≠ 1) ∧
    6 = 3 ^ 1 * 2 ^ 1 ∧
    parallelFFT 3 ([1, 2, 3, 4, 5, 6] : List (ZMod 13)) 4 1 1 =
      some [8, 2, 6, 2, 7, 10] ∧
    serialFFT 3 ([1, 2, 3, 4, 5, 6] : List (ZMod 13)) 4 1 =
      some [8, 11, 2, 10, 11, 9] ∧
    parallelFFT 3 ([1, 2, 3, 4, 5, 6] : List (ZMod 13)) 4 1 1 ≠
      serialFFT 3 ([1, 2, 3, 4, 5, 6] : List (ZMod 13)) 4 1 := by
  decide

/-- Claim C9 counterexample: with stored log2-size 1 and worker-count log2 1
(equal values), the entry point `BestFFT` takes the serial path, not the
parallel one: on `[1, …, 6]` over `Z/13` it returns the serial result, which
differs from the parallel result. -/
theorem claim_c9_cex :
    bestFFT 3 dom6 ([1, 2, 3, 4, 5, 6] : List (ZMod 13)) 4 1 =
      serialFFT 3 ([1, 2, 3, 4, 5, 6] : List (ZMod 13)) 4 1 ∧
    bestFFT 3 dom6 ([1, 2, 3, 4, 5, 6] : List (ZMod 13)) 4 1 ≠
      parallelFFT 3 ([1, 2, 3, 4, 5, 6] : List (ZMod 13)) 4 1 1 ∧
    bestFFTUsesParallelPath dom6.logSizeOfGroup 1 = false := by
  decide

/-- Claim C9 (amended): in an OpenMP-enabled build, `BestFFT` dispatches to
`ParallelFFT` exactly when the log2 of the worker count is strictly less
than the domain's stored log2-size, and to `SerialFFT` otherwise — in
particular the serial path is taken when the two are equal. -/
theorem claim_c9_amended {F : Type} [CommRing F] [DecidableEq F]
    (q : Nat) (dom : Domain F) (a : List F) (ω : F) (logThreadNums : Nat) :
    (logThreadNums < dom.logSizeOfGroup →
      bestFFT q dom a ω logThreadNums =
        parallelFFT q a ω dom.logSizeOfGroup logThreadNums) ∧
    (dom.logSizeOfGroup ≤ logThreadNums →
      bestFFT q dom a ω logThreadNums = serialFFT q a ω dom.logSizeOfGroup) := by
  constructor
  · intro h
    have : ¬ dom.logSizeOfGroup ≤ logThreadNums := by omega
    simp [bestFFT, bestFFTUsesParallelPath, this]
  · intro h
    simp [bestFFT, bestFFTUsesParallelPath, h]

/-- Witness for the amended C9 at concrete inputs (both branches). -/
theorem claim_c9_amended_witness :
    bestFFT 3 dom6 ([1, 2, 3, 4, 5, 6] : List (ZMod 13)) 4 1 =
      serialFFT 3 ([1, 2, 3, 4, 5, 6] : List (ZMod 13)) 4 1 ∧
    bestFFT 3 dom6 ([1, 2, 3, 4, 5, 6] : List (ZMod 13)) 4 0 =
      parallelFFT 3 ([1, 2, 3, 4, 5, 6] : List (ZMod 13)) 4 dom6.logSizeOfGroup 0 :=
  ⟨(claim_c9_amended 3 dom6 [1, 2, 3, 4, 5, 6] 4 1).2 (by decide),
   (claim_c9_amended 3 dom6 [1, 2, 3, 4, 5, 6] 4 0).1 (by decide)⟩


/-! ## The doubling loop and the fold of `BestMixedDomainSize` -/

lemma doubleLoop_spec :
    ∀ (fuel minSize r : Nat), 1 ≤ r → minSize ≤ r * 2 ^ fuel →
      (doubleLoop fuel minSize r).1 = r * 2 ^ (doubleLoop fuel minSize r).2 ∧
      minSize ≤ (doubleLoop fuel minSize r).1 ∧
      ∀ t, t < (doubleLoop fuel minSize r).2 → r * 2 ^ t < minSize := by
  intro fuel
  induction fuel with
  | zero =>
    intro minSize r _hr hle
    simp only [doubleLoop]
    refine ⟨by ring, by simpa using hle, fun t ht => absurd ht (Nat.not_lt_zero t)⟩
  | succ f ih =>
    intro minSize r hr hle
    by_cases h : r < minSize
    · have hle' : minSize ≤ 2 * r * 2 ^ f := by
        calc minSize ≤ r * 2 ^ (f + 1) := hle
        _ = 2 * r * 2 ^ f := by ring
      obtain ⟨h1, h2, h3⟩ := ih minSize (2 * r) (by omega) hle'
      simp only [doubleLoop, if_pos h]
      refine ⟨?_, h2, ?_⟩
      · rw [h1]; ring
      · intro t ht
        match t with
        | 0 => simpa using h
        | t' + 1 =>
          have : 2 * r * 2 ^ t' < minSize := h3 t' (by omega)
          calc r * 2 ^ (t' + 1) = 2 * r * 2 ^ t' := by ring
          _ < minSize := this
    · simp only [doubleLoop, if_neg h]
      exact ⟨by ring, by omega, fun t ht => absurd ht (Nat.not_lt_zero t)⟩

lemma foldlMin_le_init {cond : Nat → Prop} [DecidablePred cond] {val : Nat → Nat}
    {g : Nat → Nat → Nat}
    (hg : ∀ b i, g b i = if cond i then min b (val i) else b) :
    ∀ (l : List Nat) (init : Nat), l.foldl g init ≤ init := by
  intro l
  induction l with
  | nil => intro init; exact Nat.le_refl _
  | cons a l ih =>
    intro init
    rw [List.foldl_cons]
    refine Nat.le_trans (ih _) ?_
    rw [hg]
    split
    · exact Nat.min_le_left _ _
    · exact Nat.le_refl _

lemma foldlMin_le_mem {cond : Nat → Prop} [DecidablePred cond] {val : Nat → Nat}
    {g : Nat → Nat → Nat}
    (hg : ∀ b i, g b i = if cond i then min b (val i) else b) :
    ∀ (l : List Nat) (init i : Nat), i ∈ l → cond i →
      l.foldl g init ≤ val i := by
  intro l
  induction l with
  | nil => intro init i hi; exact absurd hi (List.not_mem_nil i)
  | cons a l ih =>
    intro init i hi hc
    rw [List.foldl_cons]
    rcases List.mem_cons.mp hi with rfl | hi'
    · refine Nat.le_trans (foldlMin_le_init hg l _) ?_
      rw [hg, if_pos hc]
      exact Nat.min_le_right _ _
    · exact ih _ i hi' hc

lemma foldlMin_cases {cond : Nat → Prop} [DecidablePred cond] {val : Nat → Nat}
    {g : Nat → Nat → Nat}
    (hg : ∀ b i, g b i = if cond i then min b (val i) else b) :
    ∀ (l : List Nat) (init : Nat),
      l.foldl g init = init ∨ ∃ i ∈ l, cond i ∧ l.foldl g init = val i := by
  intro l
  induction l with
  | nil => intro init; exact Or.inl rfl
  | cons a l ih =>
    intro init
    rw [List.foldl_cons]
    rcases ih (g init a) with h | ⟨i, hi, hc, h⟩
    · have hga := hg init a
      by_cases hca : cond a
      · rw [if_pos hca] at hga
        rcases Nat.le_total init (val a) with hle | hle
        · rw [Nat.min_eq_left hle] at hga; exact Or.inl (h.trans hga)
        · rw [Nat.min_eq_right hle] at hga
          exact Or.inr ⟨a, List.mem_cons_self a l, hca, h.trans hga⟩
      · rw [if_neg hca] at hga; exact Or.inl (h.trans hga)
    · exact Or.inr ⟨i, List.mem_cons_of_mem a hi, hc, h⟩

lemma bestMixed_upper (cfg : FieldConfig) (numCoeffs : Nat)
    (hb : 1 ≤ cfg.kSmallSubgroupBase) :
    ∀ i j, i ≤ cfg.kSmallSubgroupAdicity → j ≤ cfg.kTwoAdicity →
      numCoeffs ≤ cfg.kSmallSubgroupBase ^ i * 2 ^ j →
      BestMixedDomainSize cfg numCoeffs ≤ cfg.kSmallSubgroupBase ^ i * 2 ^ j := by
  intro i j hi hj hnum
  have hg : ∀ (b i : Nat),
      (fun best i =>
        let r0 := cfg.kSmallSubgroupBase ^ i
        let p := doubleLoop numCoeffs numCoeffs r0
        if p.2 ≤ cfg.kTwoAdicity then min best p.1 else best) b i =
      if (doubleLoop numCoeffs numCoeffs (cfg.kSmallSubgroupBase ^ i)).2 ≤ cfg.kTwoAdicity
      then min b (doubleLoop numCoeffs numCoeffs (cfg.kSmallSubgroupBase ^ i)).1 else b :=
    fun _ _ => rfl
  have hrpos : 1 ≤ cfg.kSmallSubgroupBase ^ i := Nat.one_le_pow i _ (by omega)
  have hfuel : numCoeffs ≤ cfg.kSmallSubgroupBase ^ i * 2 ^ numCoeffs := by
    calc numCoeffs ≤ 2 ^ numCoeffs := Nat.le_of_lt (Nat.lt_two_pow numCoeffs)
    _ = 1 * 2 ^ numCoeffs := (Nat.one_mul _).symm
    _ ≤ cfg.kSmallSubgroupBase ^ i * 2 ^ numCoeffs :=
        Nat.mul_le_mul hrpos (Nat.le_refl _)
  obtain ⟨hD1, _hD2, hD3⟩ :=
    doubleLoop_spec numCoeffs numCoeffs (cfg.kSmallSubgroupBase ^ i) hrpos hfuel
  have hTj : (doubleLoop numCoeffs numCoeffs (cfg.kSmallSubgroupBase ^ i)).2 ≤ j := by
    by_contra hlt
    exact absurd hnum (Nat.not_le.mpr (hD3 j (by omega)))
  have hval : (doubleLoop numCoeffs numCoeffs (cfg.kSmallSubgroupBase ^ i)).1 ≤
      cfg.kSmallSubgroupBase ^ i * 2 ^ j := by
    rw [hD1]
    exact Nat.mul_le_mul (Nat.le_refl _) (Nat.pow_le_pow_right (by omega) hTj)
  refine Nat.le_trans ?_ hval
  exact foldlMin_le_mem hg _ _ _ (List.mem_range.mpr (by omega)) (Nat.le_trans hTj hj)

lemma bestMixed_cases (cfg : FieldConfig) (numCoeffs : Nat)
    (hb : 1 ≤ cfg.kSmallSubgroupBase) :
    BestMixedDomainSize cfg numCoeffs = UINT64MAX ∨
    ∃ i j, i ≤ cfg.kSmallSubgroupAdicity ∧ j ≤ cfg.kTwoAdicity ∧
      numCoeffs ≤ cfg.kSmallSubgroupBase ^ i * 2 ^ j ∧
      BestMixedDomainSize cfg numCoeffs = cfg.kSmallSubgroupBase ^ i * 2 ^ j := by
  have hg : ∀ (b i : Nat),
      (fun best i =>
        let r0 := cfg.kSmallSubgroupBase ^ i
        let p := doubleLoop numCoeffs numCoeffs r0
        if p.2 ≤ cfg.kTwoAdicity then min best p.1 else best) b i =
      if (doubleLoop numCoeffs numCoeffs (cfg.kSmallSubgroupBase ^ i)).2 ≤ cfg.kTwoAdicity
      then min b (doubleLoop numCoeffs numCoeffs (cfg.kSmallSubgroupBase ^ i)).1 else b :=
    fun _ _ => rfl
  rcases foldlMin_cases hg (List.range (cfg.kSmallSubgroupAdicity + 1)) UINT64MAX with
    h | ⟨i, hi, hc, h⟩
  · exact Or.inl h
  · have hrpos : 1 ≤ cfg.kSmallSubgroupBase ^ i := Nat.one_le_pow i _ (by omega)
    have hfuel : numCoeffs ≤ cfg.kSmallSubgroupBase ^ i * 2 ^ numCoeffs := by
      calc numCoeffs ≤ 2 ^ numCoeffs := Nat.le_of_lt (Nat.lt_two_pow numCoeffs)
      _ = 1 * 2 ^ numCoeffs := (Nat.one_mul _).symm
      _ ≤ cfg.kSmallSubgroupBase ^ i * 2 ^ numCoeffs :=
          Nat.mul_le_mul hrpos (Nat.le_refl _)
    obtain ⟨hD1, hD2, _hD3⟩ :=
      doubleLoop_spec numCoeffs numCoeffs (cfg.kSmallSubgroupBase ^ i) hrpos hfuel
    refine Or.inr ⟨i, (doubleLoop numCoeffs numCoeffs (cfg.kSmallSubgroupBase ^ i)).2,
      ?_, hc, ?_, ?_⟩
    · have := List.mem_range.mp hi; omega
    · rw [← hD1]; exact hD2
    · rw [← hD1]; exact h

/-- Claim C3: for every `num_coeffs`, the size chosen by
`BestMixedDomainSize` (as used by `ComputeSizeAndFactors`) is the smallest
integer of the form `base^i * 2^j` with `i` between 0 and the field's
maximum small-subgroup adicity and `j` not exceeding the field's maximum
two-adicity such that `base^i * 2^j ≥ num_coeffs`.  Hypotheses: a positive
base (termination of the doubling loop), the `uint64` range cap on the
largest candidate, and the existence of at least one admissible size. -/
theorem claim_c3_size_minimality (cfg : FieldConfig) (numCoeffs : Nat)
    (hb : 1 ≤ cfg.kSmallSubgroupBase)
    (hcap : cfg.kSmallSubgroupBase ^ cfg.kSmallSubgroupAdicity * 2 ^ cfg.kTwoAdicity <
      UINT64MAX)
    (hne : ∃ i j, i ≤ cfg.kSmallSubgroupAdicity ∧ j ≤ cfg.kTwoAdicity ∧
      numCoeffs ≤ cfg.kSmallSubgroupBase ^ i * 2 ^ j) :
    (∃ i j, i ≤ cfg.kSmallSubgroupAdicity ∧ j ≤ cfg.kTwoAdicity ∧
      numCoeffs ≤ cfg.kSmallSubgroupBase ^ i * 2 ^ j ∧
      BestMixedDomainSize cfg numCoeffs = cfg.kSmallSubgroupBase ^ i * 2 ^ j) ∧
    ∀ i j, i ≤ cfg.kSmallSubgroupAdicity → j ≤ cfg.kTwoAdicity →
      numCoeffs ≤ cfg.kSmallSubgroupBase ^ i * 2 ^ j →
      BestMixedDomainSize cfg numCoeffs ≤ cfg.kSmallSubgroupBase ^ i * 2 ^ j := by
  refine ⟨?_, bestMixed_upper cfg numCoeffs hb⟩
  rcases bestMixed_cases cfg numCoeffs hb with h | h
  · exfalso
    obtain ⟨i0, j0, hi0, hj0, hn0⟩ := hne
    have h1 : BestMixedDomainSize cfg numCoeffs ≤ cfg.kSmallSubgroupBase ^ i0 * 2 ^ j0 :=
      bestMixed_upper cfg numCoeffs hb i0 j0 hi0 hj0 hn0
    have h2 : cfg.kSmallSubgroupBase ^ i0 * 2 ^ j0 ≤
        cfg.kSmallSubgroupBase ^ cfg.kSmallSubgroupAdicity * 2 ^ cfg.kTwoAdicity :=
      Nat.mul_le_mul (Nat.pow_le_pow_right (by omega) hi0)
        (Nat.pow_le_pow_right (by omega) hj0)
    rw [h] at h1
    omega
  · exact h

/-- Witness for C3 at `cfg13` with `num_coeffs = 3`: size 3 (taken at
`i = 1, j = 0`) bounds the selection from above. -/
theorem claim_c3_size_minimality_witness :
    BestMixedDomainSize cfg13 3 ≤ cfg13.kSmallSubgroupBase ^ 1 * 2 ^ 0 :=
  (claim_c3_size_minimality cfg13 3 (by decide) (by norm_num [UINT64MAX, cfg13])
    ⟨1, 0, by decide, by decide, by decide⟩).2 1 0 (by decide) (by decide) (by decide)

/-- Claim C8: every `num_coeffs` strictly greater than the maximum
representable degree plus one is reported not-representable by
`IsValidNumCoeffs` (which never attempts construction: it only calls the
sizing routine).  `kTwoAdicity ≤ 63` reflects the `size_t{1} << kTwoAdicity`
shift in the source. -/
theorem claim_c8_too_large_rejected (cfg : FieldConfig) (numCoeffs : Nat)
    (hb : 1 ≤ cfg.kSmallSubgroupBase) (h63 : cfg.kTwoAdicity ≤ 63)
    (h : MaxDegreeForMixedRadixEvaluationDomain cfg + 1 < numCoeffs) :
    IsValidNumCoeffs cfg numCoeffs = false := by
  have hpow : 1 ≤ 2 ^ cfg.kTwoAdicity := Nat.one_le_two_pow
  have hmax : MaxDegreeForMixedRadixEvaluationDomain cfg + 1 = 2 ^ cfg.kTwoAdicity := by
    rw [maxDegree_eq cfg, Nat.sub_add_cancel hpow]
  have hgt : MaxDegreeForMixedRadixEvaluationDomain cfg + 1 <
      BestMixedDomainSize cfg numCoeffs := by
    rcases bestMixed_cases cfg numCoeffs hb with h1 | ⟨i, j, _, _, hnum, h1⟩
    · rw [h1, hmax, UINT64MAX]
      have h2 : (2 : Nat) ^ cfg.kTwoAdicity ≤ 2 ^ 63 :=
        Nat.pow_le_pow_right (by omega) h63
      have h3 : (2 : Nat) ^ 63 < 2 ^ 64 - 1 := by norm_num
      omega
    · omega
  have hnone : ComputeSizeAndFactors cfg numCoeffs = none := by
    simp only [ComputeSizeAndFactors]
    rw [if_pos hgt]
  simp [IsValidNumCoeffs, hnone]

/-- Witness for C8: `cfg13` rejects `num_coeffs = 5 > MaxDegree + 1 = 4`. -/
theorem claim_c8_too_large_rejected_witness :
    IsValidNumCoeffs cfg13 5 = false :=
  claim_c8_too_large_rejected cfg13 5 (by decide) (by decide) (by decide)


/-! ## Digit reversal and the permutation loops -/

lemma digitRev_succ (b t x : Nat) :
    digitRev b (t + 1) x = x % b * b ^ t + digitRev b t (x / b) := rfl

lemma digitRev_lt (b : Nat) (hb : 1 ≤ b) : ∀ t x, digitRev b t x < b ^ t := by
  intro t
  induction t with
  | zero => intro x; simp [digitRev]
  | succ t ih =>
    intro x
    have h1 : digitRev b t (x / b) < b ^ t := ih _
    have h2 : x % b ≤ b - 1 := by
      have := Nat.mod_lt x (show 0 < b by omega); omega
    calc x % b * b ^ t + digitRev b t (x / b) < x % b * b ^ t + b ^ t := by omega
    _ = (x % b + 1) * b ^ t := by ring
    _ ≤ b * b ^ t := Nat.mul_le_mul (by omega) (Nat.le_refl _)
    _ = b ^ (t + 1) := by ring

lemma digitRev_zero (b : Nat) : ∀ t, digitRev b t 0 = 0 := by
  intro t
  induction t with
  | zero => rfl
  | succ t ih => simp [digitRev, ih]

lemma digitRev_msb (b : Nat) (hb : 1 ≤ b) :
    ∀ t a d, a < b ^ t → d < b →
      digitRev b (t + 1) (a + d * b ^ t) = d + b * digitRev b t a := by
  intro t
  induction t with
  | zero =>
    intro a d ha hd
    have ha0 : a = 0 := by simpa using ha
    subst ha0
    simp [digitRev, Nat.mod_eq_of_lt hd, Nat.div_eq_of_lt hd]
  | succ t ih =>
    intro a d ha hd
    have hb0 : 0 < b := by omega
    have hx : a + d * b ^ (t + 1) = a + d * b ^ t * b := by ring
    rw [hx]
    rw [digitRev_succ b (t + 1)]
    rw [Nat.add_mul_div_right _ _ hb0, Nat.add_mul_mod_self_right]
    rw [ih (a / b) d ((Nat.div_lt_iff_lt_mul hb0).mpr (by rw [← pow_succ]; exact ha)) hd]
    rw [digitRev_succ b t a]
    ring

lemma digitRev_digitRev (b : Nat) (hb : 1 ≤ b) :
    ∀ t x, x < b ^ t → digitRev b t (digitRev b t x) = x := by
  intro t
  induction t with
  | zero =>
    intro x hx
    have hx0 : x = 0 := by simpa using hx
    subst hx0; rfl
  | succ t ih =>
    intro x hx
    have hb0 : 0 < b := by omega
    have hxb : x / b < b ^ t := (Nat.div_lt_iff_lt_mul hb0).mpr (by rw [← pow_succ]; exact hx)
    have h1 : digitRev b t (x / b) < b ^ t := digitRev_lt b hb t _
    have hmod : x % b < b := Nat.mod_lt _ hb0
    calc digitRev b (t + 1) (digitRev b (t + 1) x)
        = digitRev b (t + 1) (digitRev b t (x / b) + x % b * b ^ t) := by
          rw [digitRev_succ b t x]; ring_nf
      _ = x % b + b * digitRev b t (digitRev b t (x / b)) := digitRev_msb b hb t _ _ h1 hmod
      _ = x % b + b * (x / b) := by rw [ih _ hxb]
      _ = x := Nat.mod_add_div x b

lemma digitRev_one (b : Nat) (hb : 2 ≤ b) :
    ∀ t, 1 ≤ t → digitRev b t 1 = b ^ (t - 1) := by
  intro t ht
  obtain ⟨t', rfl⟩ : ∃ t', t = t' + 1 := ⟨t - 1, by omega⟩
  simp [digitRev, Nat.mod_eq_of_lt (show 1 < b by omega),
    Nat.div_eq_of_lt (show 1 < b by omega), digitRev_zero]

lemma permuteLoop_spec (b : Nat) (hb : 1 ≤ b) :
    ∀ (c res shift i : Nat), b ^ c ∣ shift →
      permuteLoop b c (res, shift, i) =
        (res + shift / b ^ c * digitRev b c (i % b ^ c), shift / b ^ c, i / b ^ c) := by
  intro c
  induction c with
  | zero =>
    intro res shift i _
    simp [permuteLoop, digitRev]
  | succ c ih =>
    intro res shift i hdvd
    obtain ⟨k, rfl⟩ := hdvd
    have hb0 : 0 < b := by omega
    have hpow : (0:Nat) < b ^ c := pow_pos hb0 c
    have hpow1 : (0:Nat) < b ^ (c + 1) := pow_pos hb0 (c + 1)
    have hdivb : b ^ (c + 1) * k / b = b ^ c * k := by
      rw [show b ^ (c + 1) * k = b * (b ^ c * k) by ring]
      exact Nat.mul_div_cancel_left _ hb0
    simp only [permuteLoop]
    rw [hdivb, ih (res + i % b * (b ^ c * k)) (b ^ c * k) (i / b) ⟨k, rfl⟩]
    have hcc : b ^ c * k / b ^ c = k := Nat.mul_div_cancel_left k hpow
    have hcc1 : b ^ (c + 1) * k / b ^ (c + 1) = k := Nat.mul_div_cancel_left k hpow1
    have hsplit : b ^ (c + 1) = b * b ^ c := by rw [pow_succ]; ring
    have hrev : digitRev b (c + 1) (i % b ^ (c + 1)) =
        i % b * b ^ c + digitRev b c (i / b % b ^ c) := by
      rw [digitRev_succ]
      rw [Nat.mod_mod_of_dvd i (dvd_pow_self b (Nat.succ_ne_zero c))]
      rw [hsplit, Nat.mod_mul_right_div_self]
    have hddiv : i / b / b ^ c = i / b ^ (c + 1) := by
      rw [Nat.div_div_eq_div_mul, ← hsplit]
    rw [hcc, hcc1, hrev, hddiv]
    exact congrArg₂ Prod.mk (by ring) (congrArg₂ Prod.mk rfl rfl)

lemma permute_closed (s t q n : Nat) (hq : 1 ≤ q) (hn : n = q ^ t * 2 ^ s) (i : Nat) :
    MixedRadixFFTPermute s t q n i =
      q ^ t * digitRev 2 s (i % 2 ^ s) + digitRev q t (i / 2 ^ s % q ^ t) := by
  have h2 : (2:Nat) ^ s ∣ n := ⟨q ^ t, by rw [hn]; ring⟩
  have hn2 : n / 2 ^ s = q ^ t := by
    rw [hn]; exact Nat.mul_div_cancel _ (pow_pos (by norm_num) s)
  have hshow : MixedRadixFFTPermute s t q n i =
      (permuteLoop q t (permuteLoop 2 s (0, n, i))).1 := rfl
  rw [hshow, permuteLoop_spec 2 (by norm_num) s 0 n i h2, hn2,
    permuteLoop_spec q hq t _ _ _ (dvd_refl _)]
  show 0 + q ^ t * digitRev 2 s (i % 2 ^ s) +
      q ^ t / q ^ t * digitRev q t (i / 2 ^ s % q ^ t) = _
  rw [Nat.div_self (pow_pos (show 0 < q by omega) t)]
  ring

lemma permute_lt (s t q n : Nat) (hq : 1 ≤ q) (hn : n = q ^ t * 2 ^ s) (i : Nat) :
    MixedRadixFFTPermute s t q n i < n := by
  rw [permute_closed s t q n hq hn i, hn]
  have h1 : digitRev 2 s (i % 2 ^ s) < 2 ^ s := digitRev_lt 2 (by norm_num) s _
  have h2 : digitRev q t (i / 2 ^ s % q ^ t) < q ^ t := digitRev_lt q hq t _
  calc q ^ t * digitRev 2 s (i % 2 ^ s) + digitRev q t (i / 2 ^ s % q ^ t)
      < q ^ t * digitRev 2 s (i % 2 ^ s) + q ^ t := by omega
    _ = q ^ t * (digitRev 2 s (i % 2 ^ s) + 1) := by ring
    _ ≤ q ^ t * 2 ^ s := Nat.mul_le_mul (Nat.le_refl _) (by omega)

lemma permuteInv_lt (s t q n : Nat) (hq : 1 ≤ q) (hn : n = q ^ t * 2 ^ s) (j : Nat) :
    permuteInv s t q j < n := by
  unfold permuteInv
  have h1 : digitRev 2 s (j / q ^ t) < 2 ^ s := digitRev_lt 2 (by norm_num) s _
  have h2 : digitRev q t (j % q ^ t) < q ^ t := digitRev_lt q hq t _
  rw [hn]
  calc digitRev 2 s (j / q ^ t) + 2 ^ s * digitRev q t (j % q ^ t)
      < 2 ^ s + 2 ^ s * digitRev q t (j % q ^ t) := by omega
    _ = 2 ^ s * (digitRev q t (j % q ^ t) + 1) := by ring
    _ ≤ 2 ^ s * q ^ t := Nat.mul_le_mul (Nat.le_refl _) (by omega)
    _ = q ^ t * 2 ^ s := by ring

lemma permute_permuteInv (s t q n : Nat) (hq : 1 ≤ q) (hn : n = q ^ t * 2 ^ s)
    (j : Nat) (hj : j < n) :
    MixedRadixFFTPermute s t q n (permuteInv s t q j) = j := by
  have hqt : (0:Nat) < q ^ t := pow_pos (by omega) t
  have h2s : (0:Nat) < 2 ^ s := pow_pos (by norm_num) s
  have hB : j / q ^ t < 2 ^ s := by
    rw [Nat.div_lt_iff_lt_mul hqt]
    calc j < n := hj
    _ = 2 ^ s * q ^ t := by rw [hn]; ring
  have hX : j % q ^ t < q ^ t := Nat.mod_lt _ hqt
  have h2B : digitRev 2 s (j / q ^ t) < 2 ^ s := digitRev_lt 2 (by norm_num) s _
  have hqX : digitRev q t (j % q ^ t) < q ^ t := digitRev_lt q hq t _
  rw [permute_closed s t q n hq hn]
  unfold permuteInv
  rw [Nat.add_mul_mod_self_left _ _ _, Nat.mod_eq_of_lt h2B]
  rw [Nat.add_mul_div_left _ _ h2s, Nat.div_eq_of_lt h2B, Nat.zero_add]
  rw [Nat.mod_eq_of_lt hqX]
  rw [digitRev_digitRev 2 (by norm_num) s _ hB, digitRev_digitRev q hq t _ hX]
  exact Nat.div_add_mod j (q ^ t)

lemma permuteInv_permute (s t q n : Nat) (hq : 1 ≤ q) (hn : n = q ^ t * 2 ^ s)
    (i : Nat) (hi : i < n) :
    permuteInv s t q (MixedRadixFFTPermute s t q n i) = i := by
  have hqt : (0:Nat) < q ^ t := pow_pos (by omega) t
  have h2s : (0:Nat) < 2 ^ s := pow_pos (by norm_num) s
  have hx : i / 2 ^ s < q ^ t := by
    rw [Nat.div_lt_iff_lt_mul h2s]
    calc i < n := hi
    _ = q ^ t * 2 ^ s := hn
  have hb : i % 2 ^ s < 2 ^ s := Nat.mod_lt _ h2s
  have h2B : digitRev 2 s (i % 2 ^ s) < 2 ^ s := digitRev_lt 2 (by norm_num) s _
  have hqX : digitRev q t (i / 2 ^ s % q ^ t) < q ^ t := digitRev_lt q hq t _
  rw [permute_closed s t q n hq hn]
  unfold permuteInv
  rw [Nat.mul_add_div hqt, Nat.div_eq_of_lt hqX, Nat.add_zero]
  rw [Nat.mul_add_mod _ _ _, Nat.mod_eq_of_lt hqX]
  rw [Nat.mod_eq_of_lt hx] at hqX ⊢
  rw [digitRev_digitRev 2 (by norm_num) s _ hb, digitRev_digitRev q hq t _ hx]
  exact Nat.mod_add_div i (2 ^ s)

/-- Claim C5: for every `(s, t)` and base `q` with `n = q^t * 2^s`, the map
`i ↦ MixedRadixFFTPermute(s, t, q, n, i)` is a bijection on `[0, n)`: it
stays in range, and every index in `[0, n)` is produced exactly once. -/
theorem claim_c5_permute_bijective (s t q n : Nat) (hq : 1 ≤ q)
    (hn : n = q ^ t * 2 ^ s) :
    (∀ i, i < n → MixedRadixFFTPermute s t q n i < n) ∧
    ∀ j, j < n → ∃! i, i < n ∧ MixedRadixFFTPermute s t q n i = j := by
  refine ⟨fun i _ => permute_lt s t q n hq hn i, fun j hj => ?_⟩
  refine ⟨permuteInv s t q j,
    ⟨permuteInv_lt s t q n hq hn j, permute_permuteInv s t q n hq hn j hj⟩, ?_⟩
  rintro i' ⟨hi', heq⟩
  have h := permuteInv_permute s t q n hq hn i' hi'
  rw [heq] at h
  exact h.symm

/-- Witness for C5 at `(s, t, q, n) = (1, 1, 3, 6)`. -/
theorem claim_c5_permute_bijective_witness :
    (∀ i, i < 6 → MixedRadixFFTPermute 1 1 3 6 i < 6) ∧
    ∀ j, j < 6 → ∃! i, i < 6 ∧ MixedRadixFFTPermute 1 1 3 6 i = j :=
  claim_c5_permute_bijective 1 1 3 6 (by decide) (by decide)

/-- Claim C10 counterexample: at `(s, t, q, n) = (0, 1, 3, 3)` — where
`t > 0` and `n = q^t * 2^s` — the permutation IS self-inverse (it is the
identity on `[0, 3)`), refuting "for every pair (s, t) ... there exists an
index with permute(permute(i)) ≠ i". -/
theorem claim_c10_cex :
    3 = 3 ^ 1 * 2 ^ 0 ∧
    ∀ i, i < 3 →
      MixedRadixFFTPermute 0 1 3 3 (MixedRadixFFTPermute 0 1 3 3 i) = i := by
  decide

/-- Claim C10 (amended): for `t ≥ 1`, the permutation fails to be
self-inverse whenever additionally `s ≥ 1` and `q ≥ 3` (with `s = 0` it is a
pure base-`q` digit reversal and with `q ≤ 2` a pure binary bit reversal,
both involutions); index 1 witnesses the failure. -/
theorem claim_c10_amended (s t q n : Nat) (hs : 1 ≤ s) (ht : 1 ≤ t) (hq : 3 ≤ q)
    (hn : n = q ^ t * 2 ^ s) :
    ∃ i, i < n ∧
      MixedRadixFFTPermute s t q n (MixedRadixFFTPermute s t q n i) ≠ i := by
  obtain ⟨s', rfl⟩ : ∃ s', s = s' + 1 := ⟨s - 1, by omega⟩
  obtain ⟨t', rfl⟩ : ∃ t', t = t' + 1 := ⟨t - 1, by omega⟩
  have hq1 : 1 ≤ q := by omega
  have hqt3 : 3 ≤ q ^ (t' + 1) := le_trans hq (Nat.le_self_pow (by omega) q)
  have h2s2 : 2 ≤ 2 ^ (s' + 1) := Nat.le_self_pow (by omega) 2
  have h2pos : (0:Nat) < 2 ^ (s' + 1) := by omega
  have hs'lt : (2:Nat) ^ s' < 2 ^ (s' + 1) := Nat.pow_lt_pow_right (by omega) (by omega)
  refine ⟨1, ?_, ?_⟩
  · have := Nat.mul_le_mul (le_trans (by omega : 2 ≤ 3) hqt3) h2s2
    rw [hn]; omega
  · have hP1 : MixedRadixFFTPermute (s' + 1) (t' + 1) q n 1 = q ^ (t' + 1) * 2 ^ s' := by
      rw [permute_closed _ _ _ _ hq1 hn]
      rw [Nat.mod_eq_of_lt (by omega : 1 < 2 ^ (s' + 1)),
        Nat.div_eq_of_lt (by omega : 1 < 2 ^ (s' + 1))]
      rw [Nat.zero_mod, digitRev_zero, digitRev_one 2 (Nat.le_refl 2) (s' + 1) (by omega)]
      simp
    rw [hP1]
    rcases Nat.even_or_odd q with hev | hodd
    · -- q even, hence q ≥ 4; the double application lands on q/2 ≥ 2
      have hq2 : q = 2 * (q / 2) := by
        obtain ⟨h, hh⟩ := hev; omega
      have hv2 : 2 ≤ q / 2 := by omega
      have hvq : q / 2 < q := by omega
      have hqt : q ^ (t' + 1) * 2 ^ s' = q / 2 * q ^ t' * 2 ^ (s' + 1) := by
        calc q ^ (t' + 1) * 2 ^ s' = q * q ^ t' * 2 ^ s' := by ring
        _ = 2 * (q / 2) * q ^ t' * 2 ^ s' := by rw [← hq2]
        _ = q / 2 * q ^ t' * 2 ^ (s' + 1) := by ring
      rw [hqt, permute_closed _ _ _ _ hq1 hn]
      rw [Nat.mul_mod_left, Nat.mul_div_cancel _ h2pos]
      rw [digitRev_zero, Nat.mul_zero, Nat.zero_add]
      have hvlt : q / 2 * q ^ t' < q ^ (t' + 1) := by
        calc q / 2 * q ^ t' < q * q ^ t' :=
          (Nat.mul_lt_mul_right (pow_pos (by omega) t')).mpr hvq
        _ = q ^ (t' + 1) := by ring
      rw [Nat.mod_eq_of_lt hvlt]
      rw [show q / 2 * q ^ t' = 0 + q / 2 * q ^ t' by omega]
      rw [digitRev_msb q hq1 t' 0 (q / 2) (pow_pos (by omega) t') hvq]
      rw [digitRev_zero, Nat.mul_zero, Nat.add_zero]
      omega
    · -- q odd: the double application is at least q^(t'+1) ≥ 3
      obtain ⟨u, hu⟩ := hodd.pow (n := t' + 1)
      have hqt : q ^ (t' + 1) * 2 ^ s' = 2 ^ s' + u * 2 ^ (s' + 1) := by
        calc q ^ (t' + 1) * 2 ^ s' = (2 * u + 1) * 2 ^ s' := by rw [hu]
        _ = 2 ^ s' + u * 2 ^ (s' + 1) := by ring
      rw [hqt, permute_closed _ _ _ _ hq1 hn]
      rw [Nat.add_mul_mod_self_right, Nat.mod_eq_of_lt hs'lt]
      rw [Nat.add_mul_div_right _ _ h2pos, Nat.div_eq_of_lt hs'lt, Nat.zero_add]
      rw [show (2:Nat) ^ s' = 0 + 1 * 2 ^ s' by ring]
      rw [digitRev_msb 2 (by norm_num) s' 0 1 (pow_pos (by norm_num) s') (by norm_num)]
      rw [digitRev_zero, Nat.mul_zero, Nat.add_zero, Nat.mul_one]
      have := Nat.zero_le (digitRev q (t' + 1) (u % q ^ (t' + 1)))
      omega

/-- Witness for the amended C10 at `(s, t, q, n) = (1, 1, 3, 6)`. -/
theorem claim_c10_amended_witness :
    ∃ i, i < 6 ∧
      MixedRadixFFTPermute 1 1 3 6 (MixedRadixFFTPermute 1 1 3 6 i) ≠ i :=
  claim_c10_amended 1 1 3 6 (by decide) (by decide) (by decide) (by decide)


/-! ## The adicity computation and claim C7 -/

lemma computeAdicityAux_eq (q : Nat) (hq : 2 ≤ q) :
    ∀ (t fuel m : Nat), 1 ≤ m → ¬ q ∣ m → q ^ t * m ≤ fuel →
      computeAdicityAux fuel q (q ^ t * m) = t := by
  intro t
  induction t with
  | zero =>
    intro fuel m hm hnd hle
    match fuel with
    | 0 => rfl
    | f + 1 =>
      simp only [computeAdicityAux, pow_zero, one_mul]
      rw [if_neg]
      rintro ⟨-, -, hd⟩
      exact hnd hd
  | succ t' ih =>
    intro fuel m hm hnd hle
    have hqpos : 0 < q := by omega
    have hq1 : 1 ≤ q ^ (t' + 1) := Nat.one_le_pow _ _ hqpos
    have hn2 : 2 ≤ q ^ (t' + 1) * m := by
      calc 2 ≤ q := hq
      _ ≤ q ^ (t' + 1) := Nat.le_self_pow (by omega) q
      _ = q ^ (t' + 1) * 1 := (Nat.mul_one _).symm
      _ ≤ q ^ (t' + 1) * m := Nat.mul_le_mul (Nat.le_refl _) hm
    obtain ⟨f, rfl⟩ : ∃ f, fuel = f + 1 := ⟨fuel - 1, by omega⟩
    simp only [computeAdicityAux]
    rw [if_pos ⟨hq, by omega, ⟨q ^ t' * m, by ring⟩⟩]
    have hdivq : q ^ (t' + 1) * m / q = q ^ t' * m := by
      rw [show q ^ (t' + 1) * m = q * (q ^ t' * m) by ring]
      exact Nat.mul_div_cancel_left _ hqpos
    rw [hdivq]
    have hfuel' : q ^ t' * m ≤ f := by
      have h2m : 2 * (q ^ t' * m) ≤ q ^ (t' + 1) * m := by
        calc 2 * (q ^ t' * m) ≤ q * (q ^ t' * m) := Nat.mul_le_mul hq (Nat.le_refl _)
        _ = q ^ (t' + 1) * m := by ring
      have hpos : 1 ≤ q ^ t' * m := by
        have := Nat.mul_le_mul (Nat.one_le_pow t' q hqpos) hm
        omega
      omega
    rw [ih f m hm hnd hfuel']

lemma computeAdicity_eq (q t m : Nat) (hq : 2 ≤ q) (hm : 1 ≤ m) (hnd : ¬ q ∣ m) :
    computeAdicity q (q ^ t * m) = t :=
  computeAdicityAux_eq q hq t (q ^ t * m) m hm hnd (Nat.le_refl _)

lemma odd_not_dvd_two_pow (q k : Nat) (hq3 : 3 ≤ q) (hodd : Odd q) : ¬ q ∣ 2 ^ k := by
  intro hdvd
  have hco : Nat.Coprime q 2 := Nat.coprime_two_right.mpr hodd
  have := (hco.pow_right k).eq_one_of_dvd hdvd
  omega

lemma not_two_dvd_odd_pow (q k : Nat) (hodd : Odd q) : ¬ 2 ∣ q ^ k := by
  intro hdvd
  obtain ⟨u, hu⟩ := (hodd.pow (n := k))
  obtain ⟨v, hv⟩ := hdvd
  omega

/-- Claim C7: for every domain constructed through `Create` (size and stored
`log_size_of_group_` from a successful `ComputeSizeAndFactors`), the fatal
size-factorization check of `SerialFFT` holds — both for the top-level call
(`n = size`, `two_adicity = log_size_of_group_`) and for every
`ParallelFFT` sub-call (`n = size / 2^l` with `l ≤ log_size_of_group_` worker
bits, `two_adicity = ComputeAdicity(2, n)`) — so the abort branch is
unreachable from valid external input.  The base is an odd prime `≥ 3` in
every configuration that defines a small subgroup. -/
theorem claim_c7_serial_check_unreachable (cfg : FieldConfig)
    (numCoeffs size lsg : Nat)
    (hodd : Odd cfg.kSmallSubgroupBase) (h3 : 3 ≤ cfg.kSmallSubgroupBase)
    (h : Create cfg numCoeffs = some (size, lsg)) :
    serialFFTSizeCheckOK cfg.kSmallSubgroupBase size lsg = true ∧
    ∀ l, l ≤ lsg →
      serialFFTSizeCheckOK cfg.kSmallSubgroupBase (size / 2 ^ l)
        (computeAdicity 2 (size / 2 ^ l)) = true := by
  classical
  obtain ⟨⟨sz, f⟩, hcsf, heq⟩ := Option.map_eq_some'.mp h
  have hsz : sz = size := congrArg Prod.fst heq
  have hlsg : f.two_adicity = lsg := congrArg Prod.snd heq
  subst hsz
  subst hlsg
  simp only [ComputeSizeAndFactors] at hcsf
  split at hcsf
  · exact absurd hcsf (by simp)
  · obtain ⟨f0, hdec, heq0⟩ := Option.map_eq_some'.mp hcsf
    have hbest : BestMixedDomainSize cfg numCoeffs = sz := congrArg Prod.fst heq0
    have hf0 : f0 = f := congrArg Prod.snd heq0
    rw [hbest, hf0] at hdec
    simp only [Decompose] at hdec
    split at hdec
    · rename_i hguard
      have hf : f = ⟨computeAdicity 2 sz,
          computeAdicity cfg.kSmallSubgroupBase (sz / 2 ^ computeAdicity 2 sz)⟩ :=
        (Option.some_inj.mp hdec).symm
      have hta : f.two_adicity = computeAdicity 2 sz := by rw [hf]
      have hqa : f.q_adicity =
          computeAdicity cfg.kSmallSubgroupBase (sz / 2 ^ computeAdicity 2 sz) := by
        rw [hf]
      set b := cfg.kSmallSubgroupBase with hbdef
      have hb2 : 2 ≤ b := by omega
      have hsize' : sz = b ^ f.q_adicity * 2 ^ f.two_adicity := by
        rw [hta, hqa]
        exact hguard.1
      have hdivl : ∀ l, l ≤ f.two_adicity →
          sz / 2 ^ l = b ^ f.q_adicity * 2 ^ (f.two_adicity - l) := by
        intro l hl
        rw [hsize', show (2:Nat) ^ f.two_adicity = 2 ^ (f.two_adicity - l) * 2 ^ l by
          rw [← pow_add]; congr 1; omega]
        rw [show b ^ f.q_adicity * (2 ^ (f.two_adicity - l) * 2 ^ l) =
          b ^ f.q_adicity * 2 ^ (f.two_adicity - l) * 2 ^ l by ring]
        exact Nat.mul_div_cancel _ (pow_pos (by norm_num) l)
      have hcab : ∀ k, computeAdicity b (b ^ f.q_adicity * 2 ^ k) = f.q_adicity :=
        fun k => computeAdicity_eq b f.q_adicity (2 ^ k) hb2
          (Nat.one_le_pow _ _ (by norm_num)) (odd_not_dvd_two_pow b k h3 hodd)
      constructor
      · simp only [serialFFTSizeCheckOK]
        rw [hsize', hcab f.two_adicity]
        simp
      · intro l hl
        simp only [serialFFTSizeCheckOK]
        rw [hdivl l hl]
        have hca2 : computeAdicity 2 (b ^ f.q_adicity * 2 ^ (f.two_adicity - l)) =
            f.two_adicity - l := by
          rw [show b ^ f.q_adicity * 2 ^ (f.two_adicity - l) =
            2 ^ (f.two_adicity - l) * b ^ f.q_adicity by ring]
          exact computeAdicity_eq 2 (f.two_adicity - l) (b ^ f.q_adicity) (by norm_num)
            (Nat.one_le_pow _ _ (by omega)) (not_two_dvd_odd_pow b f.q_adicity hodd)
        rw [hca2, hcab (f.two_adicity - l)]
        simp
    · exact absurd hdec (by simp)

/-- Witness for C7: the `cfg13` domain with `num_coeffs = 3`
(`Create = some (3, 0)`). -/
theorem claim_c7_serial_check_unreachable_witness :
    serialFFTSizeCheckOK cfg13.kSmallSubgroupBase 3 0 = true ∧
    ∀ l, l ≤ 0 →
      serialFFTSizeCheckOK cfg13.kSmallSubgroupBase (3 / 2 ^ l)
        (computeAdicity 2 (3 / 2 ^ l)) = true :=
  claim_c7_serial_check_unreachable cfg13 3 3 0 (by decide) (by decide) (by decide)

end MixedRadix
